import Mathlib

/-!
Verification of the hashing subsystem in `include/slang/util/Hash.h`
(slang repository).

The C++ code is a stripped-down wyhash: a 64x64 -> 128-bit multiply-xor
mixer (`mum` / `mix`), byte-buffer reads (`r8`, `r4`, `r3`), a
variable-length byte hash (`hash(void const*, size_t)`, called
`hashBytes` below), a 64-bit integer hash (`hash(uint64_t)`, called
`hashU64` below), and a Boost-style `hash_combine` fold used for pairs,
tuples and vectors.

Machine integers are modelled as `Nat` with explicit `% 2^64` where the
C++ code performs wrapping 64-bit arithmetic.  A byte buffer is modelled
as a function `mem : Nat → Nat` from offsets to byte values, together
with a length; reads are little-endian, matching the host loads the
code performs via `memcpy` on a little-endian machine.
-/

namespace SlangHash

/-- The four fixed mixing constants (`secret` in `hash(void const*, size_t)`). -/
def secret0 : Nat := 0xa0761d6478bd642f

/-- Second mixing constant. -/
def secret1 : Nat := 0xe7037ed1a0b428db

/-- Third mixing constant. -/
def secret2 : Nat := 0x8ebc6af09c88c6e3

/-- Fourth mixing constant. -/
def secret3 : Nat := 0x589965cc75374cc3

/-- The `mum`, wide-multiply path (`__uint128_t` branch): the full 128-bit
product of the two 64-bit operands, returned as (low 64 bits, high 64
bits).  Operands are truncated to 64 bits as the C++ types dictate. -/
def mum (a b : Nat) : Nat × Nat :=
  let r := (a % 2 ^ 64) * (b % 2 ^ 64)
  (r % 2 ^ 64, r >>> 64)

/-- The `mum`, portable fallback path (final `#else` branch): split each
operand into 32-bit halves, form the four partial products, and combine
with explicit carry propagation, every intermediate held in a wrapping
64-bit word. -/
def mumPortable (a b : Nat) : Nat × Nat :=
  let a64 := a % 2 ^ 64
  let b64 := b % 2 ^ 64
  let ha := a64 >>> 32
  let hb := b64 >>> 32
  let la := a64 % 2 ^ 32
  let lb := b64 % 2 ^ 32
  let rh := ha * hb
  let rm0 := ha * lb
  let rm1 := hb * la
  let rl := la * lb
  let t := (rl + (rm0 <<< 32) % 2 ^ 64) % 2 ^ 64
  let c := if t < rl then 1 else 0
  let lo := (t + (rm1 <<< 32) % 2 ^ 64) % 2 ^ 64
  let c2 := c + (if lo < t then 1 else 0)
  let hi := (rh + (rm0 >>> 32) + (rm1 >>> 32) + c2) % 2 ^ 64
  (lo, hi)

/-- The `mix`: multiply-and-xor, using the wide-multiply `mum`. -/
def mix (a b : Nat) : Nat :=
  (mum a b).1 ^^^ (mum a b).2

/-- The `mix` built on the portable `mum` fallback instead. -/
def mixPortable (a b : Nat) : Nat :=
  (mumPortable a b).1 ^^^ (mumPortable a b).2

/-- The `r8`: unaligned little-endian load of 8 bytes at offset `p` of the
buffer `mem` (the `memcpy` into a `uint64_t` on a little-endian host). -/
def r8 (mem : Nat → Nat) (p : Nat) : Nat :=
  mem p + mem (p + 1) * 2 ^ 8 + mem (p + 2) * 2 ^ 16 + mem (p + 3) * 2 ^ 24 +
    mem (p + 4) * 2 ^ 32 + mem (p + 5) * 2 ^ 40 + mem (p + 6) * 2 ^ 48 + mem (p + 7) * 2 ^ 56

/-- The `r4`: unaligned little-endian load of 4 bytes at offset `p` (the
`memcpy` into a `uint32_t`, widened to 64 bits). -/
def r4 (mem : Nat → Nat) (p : Nat) : Nat :=
  mem p + mem (p + 1) * 2 ^ 8 + mem (p + 2) * 2 ^ 16 + mem (p + 3) * 2 ^ 24

/-- The `r3`: reads 1, 2 or 3 bytes (`k` is the length): packs `p[0]`,
`p[k >> 1]` and `p[k - 1]` into one word. -/
def r3 (mem : Nat → Nat) (p k : Nat) : Nat :=
  (mem p <<< 16) ||| (mem (p + k >>> 1) <<< 8) ||| mem (p + (k - 1))

/-- State of the 48-byte-chunk loop in `hash(void const*, size_t)`:
current offset `p`, remaining byte count `i`, and the three parallel
running seeds. -/
structure LoopState where
  p : Nat
  i : Nat
  seed : Nat
  see1 : Nat
  see2 : Nat
  deriving Repr, DecidableEq

/-- The `do ... while (i > 48)` loop of `hash(void const*, size_t)`:
one iteration advances the three seeds from one 48-byte chunk (each
seed from its own 16-byte sub-offset and its own secret constant), then
repeats while more than 48 bytes remain.  As a do-while loop, the body
always runs at least once; the C++ code only enters it when `i > 48`. -/
def chunkLoop (mem : Nat → Nat) (st : LoopState) : LoopState :=
  let seed := mix (r8 mem st.p ^^^ secret1) (r8 mem (st.p + 8) ^^^ st.seed)
  let see1 := mix (r8 mem (st.p + 16) ^^^ secret2) (r8 mem (st.p + 24) ^^^ st.see1)
  let see2 := mix (r8 mem (st.p + 32) ^^^ secret3) (r8 mem (st.p + 40) ^^^ st.see2)
  let st' : LoopState := ⟨st.p + 48, st.i - 48, seed, see1, see2⟩
  if h : 48 < st.i - 48 then chunkLoop mem st' else st'
termination_by st.i
decreasing_by omega

/-- The `while (i > 16)` loop of `hash(void const*, size_t)`: 16-byte
strides, each mixing two 8-byte loads into the single running seed.
Returns the final offset, remaining count and seed. -/
def strideLoop (mem : Nat → Nat) (p i seed : Nat) : Nat × Nat × Nat :=
  if h : 16 < i then
    strideLoop mem (p + 16) (i - 16) (mix (r8 mem p ^^^ secret1) (r8 mem (p + 8) ^^^ seed))
  else (p, i, seed)
termination_by i
decreasing_by omega

/-- The `hash(void const* key, size_t len)` (called `hashBytes` in the
spec): the variable-length wyhash over the buffer `mem` of `len`
bytes.  Offsets are relative to the start of the buffer. -/
def hashBytes (mem : Nat → Nat) (len : Nat) : Nat :=
  let seed := secret0
  let abs :=
    if len ≤ 16 then
      if 4 ≤ len then
        ((r4 mem 0 <<< 32) ||| r4 mem ((len >>> 3) <<< 2),
          (r4 mem (len - 4) <<< 32) ||| r4 mem (len - 4 - ((len >>> 3) <<< 2)), seed)
      else if 0 < len then
        (r3 mem 0 len, 0, seed)
      else
        (0, 0, seed)
    else
      let st :=
        if 48 < len then
          let c := chunkLoop mem ⟨0, len, seed, seed, seed⟩
          (c.p, c.i, c.seed ^^^ c.see1 ^^^ c.see2)
        else (0, len, seed)
      let t := strideLoop mem st.1 st.2.1 st.2.2
      (r8 mem (t.1 + t.2.1 - 16), r8 mem (t.1 + t.2.1 - 8), t.2.2)
  mix (secret1 ^^^ len) (mix (abs.1 ^^^ secret1) (abs.2.1 ^^^ abs.2.2))

/-- The `hash(uint64_t x)` (called `hashU64` in the spec): mixes `x` with
the 64-bit golden-ratio constant. -/
def hashU64 (x : Nat) : Nat :=
  mix x 0x9E3779B97F4A7C15

/-- Spec-side description of one 48-byte chunk: each of the three seeds
is advanced once, with its own pair of mixing constants and its own
16-byte sub-offset within the chunk. -/
def chunkStep (mem : Nat → Nat) (base : Nat) (s : Nat × Nat × Nat) : Nat × Nat × Nat :=
  (mix (r8 mem base ^^^ secret1) (r8 mem (base + 8) ^^^ s.1),
    mix (r8 mem (base + 16) ^^^ secret2) (r8 mem (base + 24) ^^^ s.2.1),
    mix (r8 mem (base + 32) ^^^ secret3) (r8 mem (base + 40) ^^^ s.2.2))

/-- Spec-side fold of `n` consecutive 48-byte chunks starting at
offset `p`. -/
def chunkFold (mem : Nat → Nat) (p n : Nat) (s : Nat × Nat × Nat) : Nat × Nat × Nat :=
  match n with
  | 0 => s
  | n + 1 => chunkFold mem (p + 48) n (chunkStep mem p s)

/-- Spec-side description of one 16-byte stride: two 8-byte loads are
xored against the first mixing constant and the running seed. -/
def strideStep (mem : Nat → Nat) (base seed : Nat) : Nat :=
  mix (r8 mem base ^^^ secret1) (r8 mem (base + 8) ^^^ seed)

/-- Spec-side fold of `m` consecutive 16-byte strides starting at
offset `p`. -/
def strideFold (mem : Nat → Nat) (p m seed : Nat) : Nat :=
  match m with
  | 0 => seed
  | m + 1 => strideFold mem (p + 16) m (strideStep mem p seed)

/-- Spec-side description of `hashBytes` for `4 ≤ len ≤ 16`: `a`
combines the 4-byte load at offset 0 with the one at offset
`4 * (len / 8)` (the code's `(len >> 3) << 2`), `b` combines the load
ending at the buffer's last 4 bytes with the one offset further back by
the same stride. -/
def hashBytesShortSpec (mem : Nat → Nat) (len : Nat) : Nat :=
  mix (secret1 ^^^ len)
    (mix (((r4 mem 0 <<< 32) ||| r4 mem (4 * (len / 8))) ^^^ secret1)
      (((r4 mem (len - 4) <<< 32) ||| r4 mem (len - 4 - 4 * (len / 8))) ^^^ secret0))

/-- Spec-side description of `hashBytes` for `len > 48`: fold the
`(len - 1) / 48` full 48-byte chunks through the three parallel seeds,
collapse them with xor, fold the remaining 16-byte strides, and read
the final `a` / `b` as the last two 8-byte words of the buffer. -/
def hashBytesLongSpec (mem : Nat → Nat) (len : Nat) : Nat :=
  let n := (len - 1) / 48
  let c := chunkFold mem 0 n (secret0, secret0, secret0)
  let m := (len - 48 * n - 1) / 16
  let seed := strideFold mem (48 * n) m (c.1 ^^^ c.2.1 ^^^ c.2.2)
  mix (secret1 ^^^ len) (mix (r8 mem (len - 16) ^^^ secret1) (r8 mem (len - 8) ^^^ seed))

/-- Spec-side description of `hashBytes` for `16 < len ≤ 48`: fold the
16-byte strides into the single seed, then read the final `a` / `b`
as the last two 8-byte words of the buffer. -/
def hashBytesMidSpec (mem : Nat → Nat) (len : Nat) : Nat :=
  let m := (len - 1) / 16
  let seed := strideFold mem 0 m secret0
  mix (secret1 ^^^ len) (mix (r8 mem (len - 16) ^^^ secret1) (r8 mem (len - 8) ^^^ seed))

/-- The body of `hash_combine(size_t&, const T&, Rest...)` for a single
already-dispatched hash value `h`:
`seed ^= h + 0x9e3779b9 + (seed << 6) + (seed >> 2)`, in wrapping
64-bit arithmetic. -/
def hashCombineStep (seed h : Nat) : Nat :=
  seed ^^^ ((h + 0x9e3779b9 + (seed <<< 6) % 2 ^ 64 + seed >>> 2) % 2 ^ 64)

/-- The variadic `hash_combine`, over the list of the already-dispatched
hash values of its arguments: the zero-argument overload returns the
seed unchanged; otherwise one step is applied and the rest recurses. -/
def hash_combine (seed : Nat) (hs : List Nat) : Nat :=
  match hs with
  | [] => seed
  | h :: rest => hash_combine (hashCombineStep seed h) rest

/-- The `detail::hashing::HashValueImpl<Tuple, Index>::apply`: recursively
folds tuple fields `0 .. Index` into the seed, low index first.  The
tuple is modelled as the list of its fields' dispatched hash values. -/
def hashValueImplApply (fields : List Nat) (index seed : Nat) : Nat :=
  match index with
  | 0 => hashCombineStep seed (fields.getD 0 0)
  | k + 1 => hashCombineStep (hashValueImplApply fields k seed) (fields.getD (k + 1) 0)

/-- The `hash<std::tuple<TT...>>`: seed 0, then `HashValueImpl` with
`Index = tuple_size - 1`. -/
def tupleHash (fields : List Nat) : Nat :=
  hashValueImplApply fields (fields.length - 1) 0

/-- The `hash<std::pair<T, U>>`: seed 0, then the two fields combined in
one variadic `hash_combine` call, first field first. -/
def pairHash (a b : Nat) : Nat :=
  hash_combine 0 [a, b]

/-- The `hash<std::vector<T>>` for 64-bit unsigned elements: seed 0, then
one `hash_combine` per element in iteration order (each element
dispatched through `hash<uint64_t>`, i.e. `hashU64`). -/
def vectorHash (vs : List Nat) : Nat :=
  vs.foldl (fun s v => hashCombineStep s (hashU64 v)) 0

/-- The `hash<T*>`: `hashU64` of the numeric address, never dereferencing;
a null pointer is address 0. -/
def rawPtrHash (addr : Nat) : Nat :=
  hashU64 addr

/-- The `hash<std::unique_ptr<T>>`: `hashU64` of the address `ptr.get()`
returns; an empty owner yields address 0. -/
def uniquePtrHash (p : Option Nat) : Nat :=
  hashU64 (p.getD 0)

/-- The `hash<std::shared_ptr<T>>`: `hashU64` of the address `ptr.get()`
returns; an empty owner yields address 0. -/
def sharedPtrHash (p : Option Nat) : Nat :=
  hashU64 (p.getD 0)

/-- The `hash<int>` (via `SLANG_HASH_STATICCAST(int)`): the value is
converted to `uint64_t` by numeric conversion — reduction modulo
`2 ^ 64`, which sign-extends negative values — then `hashU64`. -/
def intHash (v : Int) : Nat :=
  hashU64 ((v % (2 ^ 64 : Int)).toNat)

/-- The `hash<long long>` (via `SLANG_HASH_STATICCAST(long long)`): same
numeric conversion to `uint64_t`, then `hashU64`. -/
def longLongHash (v : Int) : Nat :=
  hashU64 ((v % (2 ^ 64 : Int)).toNat)

/-- The `hash<unsigned int>` (via `SLANG_HASH_STATICCAST(unsigned int)`):
the 32-bit unsigned value (its low 32 bits) widened to 64 bits
unchanged, then `hashU64`. -/
def uint32Hash (v : Nat) : Nat :=
  hashU64 (v % 2 ^ 32)

/-- The `while (i > 16)` stride loop computes the spec-side stride
fold: it runs `(i - 1) / 16` iterations, advancing the offset by 16
each time. -/
theorem strideLoop_eq (mem : Nat → Nat) :
    ∀ m p i seed, m = (i - 1) / 16 →
      strideLoop mem p i seed = (p + 16 * m, i - 16 * m, strideFold mem p m seed) := by
  intro m
  induction m with
  | zero =>
    intro p i seed hm
    rw [strideLoop, dif_neg (by omega)]
    have e1 : p + 16 * 0 = p := by omega
    have e2 : i - 16 * 0 = i := by omega
    rw [e1, e2]
    rfl
  | succ k ih =>
    intro p i seed hm
    rw [strideLoop, dif_pos (by omega : 16 < i)]
    rw [ih (p + 16) (i - 16) _ (by omega)]
    have e1 : p + 16 * (k + 1) = p + 16 + 16 * k := by omega
    have e2 : i - 16 * (k + 1) = i - 16 - 16 * k := by omega
    rw [e1, e2]
    rfl

/-- The `do ... while (i > 48)` chunk loop, entered with more than 48
bytes remaining, computes the spec-side chunk fold: it runs
`(i - 1) / 48` iterations, advancing the offset by 48 each time. -/
theorem chunkLoop_eq (mem : Nat → Nat) :
    ∀ n p i s s1 s2, 48 < i → n = (i - 1) / 48 →
      chunkLoop mem ⟨p, i, s, s1, s2⟩ =
        ⟨p + 48 * n, i - 48 * n, (chunkFold mem p n (s, s1, s2)).1,
          (chunkFold mem p n (s, s1, s2)).2.1, (chunkFold mem p n (s, s1, s2)).2.2⟩ := by
  intro n
  induction n with
  | zero =>
    intro p i s s1 s2 hi hn
    omega
  | succ k ih =>
    intro p i s s1 s2 hi hn
    rw [chunkLoop]
    dsimp only
    by_cases h : 48 < i - 48
    · rw [dif_pos h, ih (p + 48) (i - 48) _ _ _ h (by omega)]
      have e1 : p + 48 * (k + 1) = p + 48 + 48 * k := by omega
      have e2 : i - 48 * (k + 1) = i - 48 - 48 * k := by omega
      rw [e1, e2]
      rfl
    · rw [dif_neg h]
      have hk : k = 0 := by omega
      subst hk
      have e1 : p + 48 * (0 + 1) = p + 48 := by omega
      have e2 : i - 48 * (0 + 1) = i - 48 := by omega
      rw [e1, e2]
      rfl

/-- The `hashBytes` on a buffer of `16 < len ≤ 48` bytes equals its
spec-side description. -/
theorem hashBytes_midSpec_aux (mem : Nat → Nat) (len : Nat) (h16 : 16 < len)
    (h48 : len ≤ 48) : hashBytes mem len = hashBytesMidSpec mem len := by
  simp only [hashBytes, hashBytesMidSpec]
  split_ifs <;> try omega
  rw [strideLoop_eq mem ((len - 1) / 16) 0 len secret0 rfl]
  dsimp only
  congr 1
  congr 1
  · congr 2
    omega
  · congr 2
    omega

/-- The `hashBytes` on a buffer of more than 48 bytes equals its spec-side
description. -/
theorem hashBytes_longSpec_aux (mem : Nat → Nat) (len : Nat) (h48 : 48 < len) :
    hashBytes mem len = hashBytesLongSpec mem len := by
  simp only [hashBytes, hashBytesLongSpec]
  split_ifs <;> try omega
  rw [chunkLoop_eq mem ((len - 1) / 48) 0 len secret0 secret0 secret0 h48 rfl]
  dsimp only
  rw [strideLoop_eq mem ((len - 48 * ((len - 1) / 48) - 1) / 16) (0 + 48 * ((len - 1) / 48))
    (len - 48 * ((len - 1) / 48)) _ (by omega)]
  dsimp only
  congr 1
  congr 1
  · congr 2
    omega
  · congr 2
    · congr 1
      omega
    · omega

/-- The `hashBytes` on the empty buffer performs no read and returns a
fixed value. -/
theorem hashBytes_zero_aux (mem : Nat → Nat) :
    hashBytes mem 0 = mix secret1 (mix secret1 secret0) := by
  simp only [hashBytes]
  norm_num

/-- The `hashBytes` on a buffer of `1 ≤ len ≤ 3` bytes reduces to the
`r3` branch. -/
theorem hashBytes_tiny_aux (mem : Nat → Nat) (len : Nat) (h0 : 0 < len) (h4 : len < 4) :
    hashBytes mem len = mix (secret1 ^^^ len) (mix (r3 mem 0 len ^^^ secret1) (0 ^^^ secret0)) := by
  simp only [hashBytes]
  split_ifs <;> first | omega | rfl

/-- The `hashBytes` on a buffer of `4 ≤ len ≤ 16` bytes equals its
spec-side description, with the shift expressions written out as
arithmetic. -/
theorem hashBytes_short_offsets (mem : Nat → Nat) (len : Nat) (h4 : 4 ≤ len)
    (h16 : len ≤ 16) : hashBytes mem len = hashBytesShortSpec mem len := by
  have e1 : (len >>> 3) <<< 2 = 4 * (len / 8) := by
    rw [Nat.shiftRight_eq_div_pow, Nat.shiftLeft_eq]
    omega
  simp only [hashBytes, hashBytesShortSpec]
  split_ifs <;> try omega
  rw [e1]

/-- The `r8` only depends on the bytes at offsets `p .. p + 7`. -/
theorem r8_congr (mem mem' : Nat → Nat) (N p : Nat) (h : ∀ j, j < N → mem j = mem' j)
    (hp : p + 8 ≤ N) : r8 mem p = r8 mem' p := by
  unfold r8
  rw [h p (by omega), h (p + 1) (by omega), h (p + 2) (by omega), h (p + 3) (by omega),
    h (p + 4) (by omega), h (p + 5) (by omega), h (p + 6) (by omega), h (p + 7) (by omega)]

/-- The `r4` only depends on the bytes at offsets `p .. p + 3`. -/
theorem r4_congr (mem mem' : Nat → Nat) (N p : Nat) (h : ∀ j, j < N → mem j = mem' j)
    (hp : p + 4 ≤ N) : r4 mem p = r4 mem' p := by
  unfold r4
  rw [h p (by omega), h (p + 1) (by omega), h (p + 2) (by omega), h (p + 3) (by omega)]

/-- The `r3` only depends on the bytes at offsets `p .. p + k - 1`. -/
theorem r3_congr (mem mem' : Nat → Nat) (N p k : Nat) (h : ∀ j, j < N → mem j = mem' j)
    (hk : 0 < k) (hp : p + k ≤ N) : r3 mem p k = r3 mem' p k := by
  have hhalf : k >>> 1 < k := by
    rw [Nat.shiftRight_eq_div_pow]
    omega
  unfold r3
  rw [h p (by omega), h (p + k >>> 1) (by omega), h (p + (k - 1)) (by omega)]

/-- The `chunkStep` at base `p` only reads the 48 bytes of its chunk. -/
theorem chunkStep_congr (mem mem' : Nat → Nat) (N p : Nat) (h : ∀ j, j < N → mem j = mem' j)
    (hp : p + 48 ≤ N) (s : Nat × Nat × Nat) : chunkStep mem p s = chunkStep mem' p s := by
  unfold chunkStep
  rw [r8_congr mem mem' N p h (by omega), r8_congr mem mem' N (p + 8) h (by omega),
    r8_congr mem mem' N (p + 16) h (by omega), r8_congr mem mem' N (p + 24) h (by omega),
    r8_congr mem mem' N (p + 32) h (by omega), r8_congr mem mem' N (p + 40) h (by omega)]

/-- The chunk fold over `n` chunks starting at `p` only reads the bytes
at offsets `p .. p + 48 * n - 1`. -/
theorem chunkFold_congr (mem mem' : Nat → Nat) (N : Nat) (h : ∀ j, j < N → mem j = mem' j) :
    ∀ n p s, p + 48 * n ≤ N → chunkFold mem p n s = chunkFold mem' p n s := by
  intro n
  induction n with
  | zero => intro p s hp; rfl
  | succ k ih =>
    intro p s hp
    simp only [chunkFold]
    rw [chunkStep_congr mem mem' N p h (by omega) s]
    exact ih (p + 48) _ (by omega)

/-- The stride fold over `m` strides starting at `p` only reads the
bytes at offsets `p .. p + 16 * m - 1`. -/
theorem strideFold_congr (mem mem' : Nat → Nat) (N : Nat) (h : ∀ j, j < N → mem j = mem' j) :
    ∀ m p seed, p + 16 * m ≤ N → strideFold mem p m seed = strideFold mem' p m seed := by
  intro m
  induction m with
  | zero => intro p seed hp; rfl
  | succ k ih =>
    intro p seed hp
    simp only [strideFold, strideStep]
    rw [r8_congr mem mem' N p h (by omega), r8_congr mem mem' N (p + 8) h (by omega)]
    exact ih (p + 16) _ (by omega)

/-- C2: `hashBytes(ptr, len)` reads only the bytes at offsets in
`[0, len)`: two buffers that agree on those offsets hash identically;
and at `len = 0` no byte is read at all and the result is the fixed,
deterministic value `mix secret1 (mix secret1 secret0)`. -/
theorem hashBytes_footprint (mem mem' : Nat → Nat) (len : Nat)
    (h : ∀ j, j < len → mem j = mem' j) :
    hashBytes mem len = hashBytes mem' len ∧
      hashBytes mem 0 = mix secret1 (mix secret1 secret0) := by
  constructor
  · by_cases h48 : 48 < len
    · rw [hashBytes_longSpec_aux mem len h48, hashBytes_longSpec_aux mem' len h48]
      simp only [hashBytesLongSpec]
      rw [chunkFold_congr mem mem' len h ((len - 1) / 48) 0 _ (by omega)]
      rw [strideFold_congr mem mem' len h ((len - 48 * ((len - 1) / 48) - 1) / 16)
        (48 * ((len - 1) / 48)) _ (by omega)]
      rw [r8_congr mem mem' len (len - 16) h (by omega),
        r8_congr mem mem' len (len - 8) h (by omega)]
    · by_cases h16 : 16 < len
      · rw [hashBytes_midSpec_aux mem len h16 (by omega),
          hashBytes_midSpec_aux mem' len h16 (by omega)]
        simp only [hashBytesMidSpec]
        rw [strideFold_congr mem mem' len h ((len - 1) / 16) 0 _ (by omega)]
        rw [r8_congr mem mem' len (len - 16) h (by omega),
          r8_congr mem mem' len (len - 8) h (by omega)]
      · by_cases h4 : 4 ≤ len
        · rw [hashBytes_short_offsets mem len h4 (by omega),
            hashBytes_short_offsets mem' len h4 (by omega)]
          simp only [hashBytesShortSpec]
          rw [r4_congr mem mem' len 0 h (by omega),
            r4_congr mem mem' len (4 * (len / 8)) h (by omega),
            r4_congr mem mem' len (len - 4) h (by omega),
            r4_congr mem mem' len (len - 4 - 4 * (len / 8)) h (by omega)]
        · by_cases h0 : 0 < len
          · rw [hashBytes_tiny_aux mem len h0 (by omega),
              hashBytes_tiny_aux mem' len h0 (by omega),
              r3_congr mem mem' len 0 len h h0 (by omega)]
          · have hlen : len = 0 := by omega
            subst hlen
            rw [hashBytes_zero_aux mem, hashBytes_zero_aux mem']
  · exact hashBytes_zero_aux mem

/-- Witness for C2 at a concrete pair of buffers agreeing on `[0, 5)`. -/
theorem hashBytes_footprint_witness :
    (∀ j, j < 5 → (fun n => n) j = (fun n => if n < 5 then n else 7) j) ∧
      (hashBytes (fun n => n) 5 = hashBytes (fun n => if n < 5 then n else 7) 5 ∧
        hashBytes (fun n => n) 0 = mix secret1 (mix secret1 secret0)) :=
  ⟨by decide, hashBytes_footprint (fun n => n) (fun n => if n < 5 then n else 7) 5 (by decide)⟩

/-- C3: for `len > 48`, `hashBytes` advances the three parallel seeds
once per 48-byte chunk (each with its own pair of mixing constants and
its own 16-byte sub-offset), folds them as `seed ^ see1 ^ see2` after
the full chunks are exhausted, continues with 16-byte strides while
more than 16 bytes remain, and takes the final `a` / `b` from the last
two 8-byte words of the original buffer, re-read from the tail. -/
theorem hashBytes_long_structure (mem : Nat → Nat) (len : Nat) (h : 48 < len) :
    hashBytes mem len = hashBytesLongSpec mem len :=
  hashBytes_longSpec_aux mem len h

/-- Witness for C3 at a concrete buffer of 49 bytes. -/
theorem hashBytes_long_structure_witness :
    48 < 49 ∧ hashBytes (fun j => j % 256) 49 = hashBytesLongSpec (fun j => j % 256) 49 :=
  ⟨by omega, hashBytes_long_structure (fun j => j % 256) 49 (by omega)⟩

/-- C4: for `4 ≤ len ≤ 16`, `hashBytes` builds `a` from the 4-byte
loads at offsets `0` and `(len >> 3) << 2 = 4 * (len / 8)`, and `b`
from the 4-byte loads at offsets `len - 4` (the buffer's last 4 bytes)
and `len - 4 - 4 * (len / 8)`. -/
theorem hashBytes_short_structure (mem : Nat → Nat) (len : Nat) (h4 : 4 ≤ len)
    (h16 : len ≤ 16) : hashBytes mem len = hashBytesShortSpec mem len :=
  hashBytes_short_offsets mem len h4 h16

/-- Witness for C4 at a concrete buffer of 7 bytes. -/
theorem hashBytes_short_structure_witness :
    (4 ≤ 7 ∧ 7 ≤ 16) ∧
      hashBytes (fun j => j % 256) 7 = hashBytesShortSpec (fun j => j % 256) 7 :=
  ⟨by omega, hashBytes_short_structure (fun j => j % 256) 7 (by omega) (by omega)⟩

/-- C1: the portable fallback multiplication path of `mum` (split each
operand into 32-bit halves, form the four partial products, combine
with explicit carry propagation) produces exactly the same low-64 /
high-64 result pair as the true 128-bit-wide multiply path, for every
pair of 64-bit operands; consequently `mix` returns the same value
regardless of which path is compiled. -/
theorem mumPortable_eq_mum (a b : Nat) :
    mumPortable a b = mum a b ∧ mixPortable a b = mix a b := by
  have hmum : mumPortable a b = mum a b := by
    unfold mumPortable mum
    simp only [Nat.shiftLeft_eq, Nat.shiftRight_eq_div_pow, Prod.mk.injEq]
    have hA : a % 2 ^ 64 < 2 ^ 64 := Nat.mod_lt _ (by norm_num)
    have hB : b % 2 ^ 64 < 2 ^ 64 := Nat.mod_lt _ (by norm_num)
    set A := a % 2 ^ 64 with hAdef
    set B := b % 2 ^ 64 with hBdef
    have key : A * B = A / 2 ^ 32 * (B / 2 ^ 32) * 2 ^ 64 + A / 2 ^ 32 * (B % 2 ^ 32) * 2 ^ 32 +
        B / 2 ^ 32 * (A % 2 ^ 32) * 2 ^ 32 + A % 2 ^ 32 * (B % 2 ^ 32) := by
      have h1 : A = A / 2 ^ 32 * 2 ^ 32 + A % 2 ^ 32 := by omega
      have h2 : B = B / 2 ^ 32 * 2 ^ 32 + B % 2 ^ 32 := by omega
      calc A * B = (A / 2 ^ 32 * 2 ^ 32 + A % 2 ^ 32) * (B / 2 ^ 32 * 2 ^ 32 + B % 2 ^ 32) := by
            rw [← h1, ← h2]
        _ = A / 2 ^ 32 * (B / 2 ^ 32) * 2 ^ 64 + A / 2 ^ 32 * (B % 2 ^ 32) * 2 ^ 32 +
              B / 2 ^ 32 * (A % 2 ^ 32) * 2 ^ 32 + A % 2 ^ 32 * (B % 2 ^ 32) := by ring
    have bnd : ∀ x y : Nat, x < 2 ^ 32 → y < 2 ^ 32 → x * y ≤ (2 ^ 32 - 1) * (2 ^ 32 - 1) :=
      fun x y hx hy => Nat.mul_le_mul (by omega) (by omega)
    have bh : A / 2 ^ 32 * (B / 2 ^ 32) ≤ (2 ^ 32 - 1) * (2 ^ 32 - 1) :=
      bnd _ _ (by omega) (by omega)
    have bm0 : A / 2 ^ 32 * (B % 2 ^ 32) ≤ (2 ^ 32 - 1) * (2 ^ 32 - 1) :=
      bnd _ _ (by omega) (by omega)
    have bm1 : B / 2 ^ 32 * (A % 2 ^ 32) ≤ (2 ^ 32 - 1) * (2 ^ 32 - 1) :=
      bnd _ _ (by omega) (by omega)
    have bl : A % 2 ^ 32 * (B % 2 ^ 32) ≤ (2 ^ 32 - 1) * (2 ^ 32 - 1) :=
      bnd _ _ (by omega) (by omega)
    set rh := A / 2 ^ 32 * (B / 2 ^ 32) with hrh
    set rm0 := A / 2 ^ 32 * (B % 2 ^ 32) with hrm0
    set rm1 := B / 2 ^ 32 * (A % 2 ^ 32) with hrm1
    set rl := A % 2 ^ 32 * (B % 2 ^ 32) with hrl
    constructor
    · omega
    · split_ifs <;> omega
  exact ⟨hmum, by unfold mixPortable mix; rw [hmum]⟩

/-- The `hash_combine` expressed as a left fold over the hash values. -/
theorem hash_combine_eq_foldl (seed : Nat) (hs : List Nat) :
    hash_combine seed hs = hs.foldl hashCombineStep seed := by
  induction hs generalizing seed with
  | nil => rfl
  | cons h t ih => simp [hash_combine, ih]

/-- The `hash_combine` over an appended list folds the two parts in order. -/
theorem hash_combine_append (seed : Nat) (l1 l2 : List Nat) :
    hash_combine seed (l1 ++ l2) = hash_combine (hash_combine seed l1) l2 := by
  induction l1 generalizing seed with
  | nil => rfl
  | cons h t ih => simp [hash_combine, ih]

/-- C5: the two-argument `hash_combine` produces exactly
`seed XOR (hash(v) + 0x9e3779b9 + (seed << 6) + (seed >> 2))` (in
wrapping 64-bit arithmetic, with the shifts written out as
multiplication and division); the variadic form applies this step left
to right, one value at a time in argument order; and the zero-argument
form leaves the seed unchanged. -/
theorem hash_combine_spec (seed h : Nat) (hs : List Nat) :
    hashCombineStep seed h =
        seed ^^^ ((h + 0x9e3779b9 + seed * 2 ^ 6 % 2 ^ 64 + seed / 2 ^ 2) % 2 ^ 64) ∧
      hash_combine seed [] = seed ∧
      hash_combine seed (h :: hs) = hash_combine (hashCombineStep seed h) hs ∧
      hash_combine seed hs = hs.foldl hashCombineStep seed := by
  refine ⟨?_, rfl, rfl, hash_combine_eq_foldl seed hs⟩
  unfold hashCombineStep
  rw [Nat.shiftLeft_eq, Nat.shiftRight_eq_div_pow]

/-- The `HashValueImpl::apply` at index `k` combines exactly the first
`k + 1` fields, in ascending index order, into the seed. -/
theorem hashValueImplApply_eq (fields : List Nat) :
    ∀ k, k < fields.length → ∀ seed,
      hashValueImplApply fields k seed = hash_combine seed (fields.take (k + 1)) := by
  intro k
  induction k with
  | zero =>
    intro hk seed
    cases fields with
    | nil => simp at hk
    | cons f t => rfl
  | succ k ih =>
    intro hk seed
    have hk' : k < fields.length := by omega
    simp only [hashValueImplApply]
    rw [ih hk' seed]
    conv_rhs => rw [List.take_succ]
    rw [hash_combine_append, List.getElem?_eq_getElem hk]
    simp [hash_combine, List.getD_eq_getElem?_getD, List.getElem?_eq_getElem hk]

/-- C6: hashing an `N`-field tuple starts from seed 0 and combines the
fields strictly in ascending positional order (it equals the variadic
`hash_combine` of all fields from seed 0); consequently the hash of a
pair equals the hash of the corresponding 2-tuple, even though the
tuple path recurses through `HashValueImpl` while the pair path calls
`hash_combine` directly. -/
theorem tupleHash_ascending_and_pair (fields : List Nat) (a b : Nat) (h : fields ≠ []) :
    tupleHash fields = hash_combine 0 fields ∧ pairHash a b = tupleHash [a, b] := by
  constructor
  · unfold tupleHash
    have hlen : fields.length - 1 < fields.length := by
      cases fields with
      | nil => simp at h
      | cons f t => simp
    rw [hashValueImplApply_eq fields (fields.length - 1) hlen 0]
    congr 1
    have hx : fields.length - 1 + 1 = fields.length := by
      cases fields with
      | nil => simp at h
      | cons f t => simp
    rw [hx, List.take_length]
  · rfl

/-- Witness for C6 at a concrete 3-field tuple and a concrete pair. -/
theorem tupleHash_ascending_and_pair_witness :
    ([3, 4, 5] : List Nat) ≠ [] ∧
      (tupleHash [3, 4, 5] = hash_combine 0 [3, 4, 5] ∧ pairHash 1 2 = tupleHash [1, 2]) :=
  ⟨by decide, tupleHash_ascending_and_pair [3, 4, 5] 1 2 (by decide)⟩

/-- C7: folding the values 1 then 2 (each dispatched through the
integral hash `hashU64`) into an initial seed of 0 yields a different
result than folding 2 then 1. -/
theorem combine_order_sensitive :
    hash_combine 0 [hashU64 1, hashU64 2] ≠ hash_combine 0 [hashU64 2, hashU64 1] := by
  decide

/-- The vector hash always fits in 64 bits. -/
theorem vectorHash_lt (vs : List Nat) : vectorHash vs < 2 ^ 64 := by
  have key : ∀ (l : List Nat) (seed : Nat), seed < 2 ^ 64 →
      l.foldl (fun s v => hashCombineStep s (hashU64 v)) seed < 2 ^ 64 := by
    intro l
    induction l with
    | nil => intro seed hs; simpa using hs
    | cons v t ih =>
      intro seed hs
      simp only [List.foldl_cons]
      refine ih _ ?_
      unfold hashCombineStep
      exact Nat.xor_lt_two_pow hs (Nat.mod_lt _ (by norm_num))
  exact key vs 0 (by norm_num)

/-- C8 as stated is false: hash equality cannot imply sequence
equality, because infinitely many sequences share finitely many 64-bit
hash values (pigeonhole); some two distinct replicate-lists collide. -/
theorem vectorHash_iff_counterexample :
    ¬ (∀ l1 l2 : List Nat, vectorHash l1 = vectorHash l2 ↔ l1 = l2) := by
  intro H
  obtain ⟨x, y, hne, heq⟩ :=
    Finite.exists_ne_map_eq_of_infinite
      (fun n : Nat => (⟨vectorHash (List.replicate n 0), vectorHash_lt _⟩ : Fin (2 ^ 64)))
  have hrep : List.replicate x 0 = List.replicate y 0 :=
    (H _ _).mp (congrArg Fin.val heq)
  have hxy : x = y := by
    have := congrArg List.length hrep
    simpa using this
  exact hne hxy

/-- C8 amended: equal sequences (equal length, pairwise-equal elements
in the same order) always hash equally, and reordering does in general
change the hash (e.g. `[1, 2]` vs `[2, 1]`); but equal hashes do not
guarantee equal sequences, since collisions must exist. -/
theorem vectorHash_eq_of_eq (l1 l2 : List Nat) (h : l1 = l2) :
    vectorHash l1 = vectorHash l2 ∧ vectorHash [1, 2] ≠ vectorHash [2, 1] :=
  ⟨by rw [h], by decide⟩

/-- Witness for the amended C8 at concrete lists. -/
theorem vectorHash_eq_of_eq_witness :
    ([7, 8] : List Nat) = [7, 8] ∧
      (vectorHash [7, 8] = vectorHash [7, 8] ∧ vectorHash [1, 2] ≠ vectorHash [2, 1]) :=
  ⟨rfl, vectorHash_eq_of_eq [7, 8] [7, 8] rfl⟩

/-- C9: a raw pointer, a unique owner and a shared owner of the same
address all hash to `hashU64` of that numeric address, so all wrapper
kinds at one address hash identically; an absent/null reference of any
kind hashes identically to address zero, `hashU64 0`. -/
theorem ptrHash_by_address (addr : Nat) :
    rawPtrHash addr = hashU64 addr ∧ uniquePtrHash (some addr) = hashU64 addr ∧
      sharedPtrHash (some addr) = hashU64 addr ∧ rawPtrHash 0 = hashU64 0 ∧
      uniquePtrHash none = hashU64 0 ∧ sharedPtrHash none = hashU64 0 :=
  ⟨rfl, rfl, rfl, rfl, rfl, rfl⟩

/-- C10: the built-in integral hash converts the signed value to
`uint64_t` by numeric conversion (reduction modulo `2 ^ 64`, which
sign-extends negative values): `int(-1)` and `long long(-1)` both hash
as `hashU64 0xFFFFFFFFFFFFFFFF`, while the 32-bit unsigned value
`0xFFFFFFFF` hashes as `hashU64 0xFFFFFFFF` — a negative signed value
does not hash equally to its same-width unsigned bit pattern. -/
theorem intHash_numeric_conversion (v : Int) :
    intHash v = hashU64 ((v % (2 ^ 64 : Int)).toNat) ∧
      longLongHash (-1) = intHash (-1) ∧
      intHash (-1) = hashU64 0xFFFFFFFFFFFFFFFF ∧
      uint32Hash 0xFFFFFFFF = hashU64 0xFFFFFFFF ∧
      intHash (-1) ≠ uint32Hash 0xFFFFFFFF := by
  refine ⟨rfl, rfl, ?_, ?_, ?_⟩
  · decide
  · decide
  · decide

end SlangHash
